import Mathlib

/-!
Verification of the gql/gqn language-model-as-policy reinforcement-learning core.

The Python sources are shallowly embedded here:
* Python strings are modelled as `List Char` (`Str`), so that every string
  operation used by the code (`lstrip`, `split(".")`, concatenation, `in`)
  is a structurally recursive, kernel-evaluable Lean function.
* Stateful code (the completion cache, the training loop) is modelled by
  explicit state passing; unbounded `while` loops are modelled with a fuel
  parameter (the loop diverges iff every fuel runs out), and the external
  completion service is modelled as a stream `Nat → Str` of successive
  completion texts.
* Python floats are modelled as rationals (`ℚ`); the one transcendental
  formula of the training loop (the logistic confidence score) is stated
  over `ℝ` with `Real.exp`.
* Components of the repository that are referenced but whose source is not
  part of the tree (the `env` module of gql, the `model` module of gqn) are
  either taken as parameters or modelled from the specification; each such
  definition carries a doc comment saying so.
-/

/-- Python strings, modelled as lists of characters. -/
abbrev Str := List Char

/-- Python `str.lstrip()`: drop leading whitespace characters. -/
def lstrip (s : Str) : Str := s.dropWhile Char.isWhitespace

/-- Python `str.split(".")`: split at every occurrence of `'.'`.  Like the
Python function, the result is never empty and has one part more than the
number of dots in the input. -/
def splitOnDot : Str → List Str
  | [] => [[]]
  | c :: cs =>
    if c = '.' then [] :: splitOnDot cs
    else
      match splitOnDot cs with
      | [] => [[c]]
      | r :: rs => (c :: r) :: rs

/-- Python `list.index`, with the `ValueError` made explicit as `none`:
the index of the first occurrence of `x`. -/
def pyIndex : List Str → Str → Option Nat
  | [], _ => none
  | a :: rest, x => if a = x then some 0 else (pyIndex rest x).map (· + 1)

/-- One parsing attempt of `Pi._act` (src/gql/model.py:226-234): lstrip the
completion, keep the text before the first `"."`, re-append the `"."` and look
the candidate up in the environment's canonical action list `ACTIONS`
(the `env` module itself is not in the tree, so the list is a parameter). -/
def piParse (actions : List Str) (completion : Str) : Option Nat :=
  let maybe_action := (splitOnDot (lstrip completion)).headD []
  pyIndex actions (maybe_action ++ ".".data)

/-- The retry loop of `Pi._act` (src/gql/model.py:218-235).  `cs k` is the
completion returned by the client for the `k`-th freshly sampled prompt; the
loop retries until a completion parses to a canonical action.  `fuel` bounds
the number of attempts modelled; the Python loop is unbounded. -/
def piAct (actions : List Str) (cs : Nat → Str) : Nat → Nat → Option Nat
  | _, 0 => none
  | k, fuel + 1 =>
    match piParse actions (cs k) with
    | some a => some a
    | none => piAct actions cs (k + 1) fuel

/-- Concrete action list for the C1 witness. -/
def actsW : List Str := ["up.".data, "down.".data]

/-- Concrete completion stream for the C1 witness. -/
def csW : Nat → Str := fun _ => "down. rest".data

theorem pyIndex_spec (l : List Str) (x : Str) (i : Nat)
    (h : pyIndex l x = some i) : i < l.length ∧ l.get? i = some x := by
  induction l generalizing i with
  | nil => simp [pyIndex] at h
  | cons a rest ih =>
    by_cases hax : a = x
    · simp [pyIndex, hax] at h
      subst h
      simp [hax]
    · simp [pyIndex, hax] at h
      obtain ⟨j, hj, rfl⟩ := h
      obtain ⟨h1, h2⟩ := ih j hj
      exact ⟨by simp only [List.length_cons]; omega, by simpa using h2⟩

/-- C1: whenever the Policy Agent's action selection `Pi._act` returns, the
returned value is a valid index into the environment's canonical action list
(`[0, n)` for `n` actions), the action at that index is exactly the first
sentence-terminated segment of the completion that produced it (so a
completion whose first segment matches no canonical action is never
returned), and every earlier completion in the retry sequence failed to
parse and was retried with a fresh prompt. -/
theorem pi_act_valid (actions : List Str) (cs : Nat → Str) (k fuel a : Nat)
    (h : piAct actions cs k fuel = some a) :
    a < actions.length ∧
      ∃ j, k ≤ j ∧ j < k + fuel ∧
        actions.get? a = some ((splitOnDot (lstrip (cs j))).headD [] ++ ".".data) ∧
        ∀ i, k ≤ i → i < j → piParse actions (cs i) = none := by
  induction fuel generalizing k with
  | zero => simp [piAct] at h
  | succ fuel ih =>
    rw [piAct] at h
    cases hp : piParse actions (cs k) with
    | some a0 =>
      rw [hp] at h
      cases h
      have hspec := pyIndex_spec actions _ a hp
      refine ⟨hspec.1, k, le_refl k, by omega, hspec.2, ?_⟩
      intro i hki hik
      omega
    | none =>
      rw [hp] at h
      obtain ⟨ha, j, hkj, hjf, hget, hfail⟩ := ih (k + 1) h
      refine ⟨ha, j, by omega, by omega, hget, ?_⟩
      intro i hki hij
      rcases Nat.eq_or_lt_of_le hki with rfl | hlt
      · exact hp
      · exact hfail i hlt hij

theorem pi_act_valid_witness :
    1 < actsW.length ∧
      ∃ j, 0 ≤ j ∧ j < 0 + 1 ∧
        actsW.get? 1 = some ((splitOnDot (lstrip (csW j))).headD [] ++ ".".data) ∧
        ∀ i, 0 ≤ i → i < j → piParse actsW (csW i) = none :=
  pi_act_valid actsW csW 0 1 1 (by decide)

/-- The shelve-backed completion store of `GPT3` (src/gql/model.py:65-67),
modelled as an association list keyed by exact prompt text (first binding
wins, and updates bind in front, as a mutable keyed store). -/
def dbGet : List (Str × Str) → Str → Option Str
  | [], _ => none
  | (q, v) :: rest, p => if q = p then some v else dbGet rest p

/-- `self.db[prompt] = completion` (src/gql/model.py:93). -/
def dbSet (db : List (Str × Str)) (p v : Str) : List (Str × Str) :=
  (p, v) :: db

/-- The live-call retry loop of `GPT3.__call__` (src/gql/model.py:82-97):
`live k` is the text of the `k`-th live response from the completion
service; each response is lstripped and accepted exactly when it contains a
`'.'`.  Returns the accepted completion together with the next unused live
index, so the number of live calls made is the difference of the indices.
`fuel` bounds the number of attempts modelled; the Python loop is unbounded. -/
def liveLoop (live : Nat → Str) : Nat → Nat → Option (Str × Nat)
  | _, 0 => none
  | k, fuel + 1 =>
    let completion := lstrip (live k)
    if '.' ∈ completion then some (completion, k + 1)
    else liveLoop live (k + 1) fuel

/-- `GPT3.__call__` (src/gql/model.py:69-97): a cache hit returns the stored
completion with no live call; a miss runs the live retry loop and writes the
accepted completion back into the store, keyed by the exact prompt text,
before returning it.  Result: (completion, updated store, next live index). -/
def gpt3Call (live : Nat → Str) (db : List (Str × Str)) (p : Str) (k fuel : Nat) :
    Option (Str × List (Str × Str) × Nat) :=
  match dbGet db p with
  | some completion => some (completion, db, k)
  | none => (liveLoop live k fuel).map (fun r => (r.1, dbSet db p r.1, r.2))

theorem liveLoop_dot (live : Nat → Str) (k fuel : Nat) (c : Str) (k2 : Nat)
    (h : liveLoop live k fuel = some (c, k2)) : '.' ∈ c := by
  induction fuel generalizing k with
  | zero => simp [liveLoop] at h
  | succ fuel ih =>
    rw [liveLoop] at h
    by_cases hd : '.' ∈ lstrip (live k)
    · simp only [hd, if_pos] at h
      cases h
      exact hd
    · simp only [hd, if_neg, not_false_iff] at h
      exact ih (k + 1) h

/-- C3 (amended): if a first call of `GPT3.__call__` on prompt `p` returns
completion `c` with updated store `db1` and live index `k1`, then the
completion was stored under the exact prompt before returning, a second call
with the same prompt returns the identical completion, does not change the
store and issues zero live calls (the live index stays at `k1`), and the
first call itself issued at most one live call whenever it was a cache hit
or its first live completion contained a `'.'` (each malformed live
completion adds one extra retry call, so "at most one live call across both
invocations" holds exactly in that case). -/
theorem gpt3_cache_idempotent (live : Nat → Str) (db : List (Str × Str))
    (p : Str) (k0 fuel : Nat) (c : Str) (db1 : List (Str × Str)) (k1 : Nat)
    (h : gpt3Call live db p k0 fuel = some (c, db1, k1)) :
    dbGet db1 p = some c ∧
    (∀ fuel2, gpt3Call live db1 p k1 fuel2 = some (c, db1, k1)) ∧
    ((dbGet db p ≠ none ∨ '.' ∈ lstrip (live k0)) → k1 ≤ k0 + 1) := by
  cases hdb : dbGet db p with
  | some v =>
    rw [gpt3Call, hdb] at h
    cases h
    refine ⟨hdb, ?_, ?_⟩
    · intro fuel2
      rw [gpt3Call, hdb]
    · intro _
      omega
  | none =>
    rw [gpt3Call, hdb] at h
    cases hl : liveLoop live k0 fuel with
    | none => rw [hl] at h; simp at h
    | some r =>
      rw [hl] at h
      simp only [Option.map_some] at h
      cases h
      have hget : dbGet (dbSet db p r.1) p = some r.1 := by
        simp [dbSet, dbGet]
      refine ⟨hget, ?_, ?_⟩
      · intro fuel2
        rw [gpt3Call, hget]
      · intro hcase
        rcases hcase with hne | hdot
        · exact absurd rfl hne
        · cases fuel with
          | zero => simp [liveLoop] at hl
          | succ fuel =>
            rw [liveLoop] at hl
            simp only [hdot, if_pos] at hl
            cases hl
            omega

/-- Concrete live-response stream for the C3 counterexample: the first live
completion lacks a `'.'` and is retried. -/
def liveCE : Nat → Str := fun n => if n = 0 then "x".data else "a.".data

/-- Concrete prompt for the C3 counterexample. -/
def pCE : Str := "p".data

/-- C3 counterexample: with an empty store, the first invocation of
`GPT3.__call__` on prompt `"p"` issues two live calls (the live index
advances from 0 to 2) because the first live completion `"x"` contains no
`'.'`; the second invocation is a cache hit issuing zero live calls and
returns the identical text.  Hence the two invocations return identical
completions but issue two live calls in total, refuting "at most one live
call to the external completion service across the two invocations". -/
theorem gpt3_two_live_calls :
    gpt3Call liveCE [] pCE 0 5 = some ("a.".data, [(pCE, "a.".data)], 2) ∧
    gpt3Call liveCE [(pCE, "a.".data)] pCE 2 5 =
      some ("a.".data, [(pCE, "a.".data)], 2) ∧
    ¬ ((2 : Nat) - 0 ≤ 1) :=
  ⟨by decide, by decide, by decide⟩

/-- Concrete live-response stream for the cache witnesses. -/
def liveW : Nat → Str := fun _ => "ok.".data

theorem gpt3_cache_idempotent_witness :
    dbGet [("q".data, "ok.".data)] "q".data = some "ok.".data ∧
    (∀ fuel2, gpt3Call liveW [("q".data, "ok.".data)] "q".data 1 fuel2 =
      some ("ok.".data, [("q".data, "ok.".data)], 1)) ∧
    ((dbGet ([] : List (Str × Str)) "q".data ≠ none ∨ '.' ∈ lstrip (liveW 0)) →
      1 ≤ 0 + 1) :=
  gpt3_cache_idempotent liveW [] "q".data 0 3 "ok.".data
    [("q".data, "ok.".data)] 1 (by decide)

/-- C10: if every completion already in the store contains a `'.'`, then the
completion returned by `GPT3.__call__` contains a `'.'`, every completion in
the updated store contains a `'.'` (so a live completion lacking `'.'` is
neither returned nor cached), and a live completion lacking `'.'` makes the
retry loop re-issue the live call at the next index. -/
theorem gpt3_dot_invariant (live : Nat → Str) (db : List (Str × Str))
    (p : Str) (k fuel : Nat) (c : Str) (db1 : List (Str × Str)) (k1 : Nat)
    (hdb : ∀ q v, dbGet db q = some v → '.' ∈ v)
    (h : gpt3Call live db p k fuel = some (c, db1, k1)) :
    '.' ∈ c ∧ (∀ q v, dbGet db1 q = some v → '.' ∈ v) ∧
    (∀ j f, ¬ '.' ∈ lstrip (live j) →
      liveLoop live j (f + 1) = liveLoop live (j + 1) f) := by
  have hre : ∀ j f, ¬ '.' ∈ lstrip (live j) →
      liveLoop live j (f + 1) = liveLoop live (j + 1) f := by
    intro j f hj
    rw [liveLoop]
    simp only [hj, if_neg, not_false_iff]
  cases hdb0 : dbGet db p with
  | some v =>
    rw [gpt3Call, hdb0] at h
    cases h
    exact ⟨hdb p c hdb0, hdb, hre⟩
  | none =>
    rw [gpt3Call, hdb0] at h
    cases hl : liveLoop live k fuel with
    | none => rw [hl] at h; simp at h
    | some r =>
      rw [hl] at h
      simp only [Option.map_some] at h
      cases h
      have hdot := liveLoop_dot live k fuel r.1 r.2 hl
      refine ⟨hdot, ?_, hre⟩
      intro q v hv
      by_cases hq : p = q
      · subst hq
        simp [dbSet, dbGet] at hv
        subst hv
        exact hdot
      · simp [dbSet, dbGet, hq] at hv
        exact hdb q v hv

theorem gpt3_dot_invariant_witness :
    '.' ∈ "ok.".data ∧
    (∀ q v, dbGet [("r".data, "ok.".data)] q = some v → '.' ∈ v) ∧
    (∀ j f, ¬ '.' ∈ lstrip (liveW j) →
      liveLoop liveW j (f + 1) = liveLoop liveW (j + 1) f) :=
  gpt3_dot_invariant liveW [] "r".data 0 3 "ok.".data
    [("r".data, "ok.".data)] 1 (fun q v hv => by simp [dbGet] at hv) (by decide)

/-- `reformat` (src/gql/model.py:141-142): lstrip the segment and re-append
the sentence terminator. -/
def reformat (completion : Str) : Str := lstrip completion ++ ".".data

/-- The rollout loop of `Q.value` (src/gql/model.py:195-213).  `cs k` is the
`k`-th completion returned by the client during this rollout.  The loop runs
while the current `state_or_reward` is not a recognized terminal-reward token
(a value of the `REWARDS` dict of the missing `env` module, passed here as
the list `Rvals`); each iteration parses the next completion into an action
segment and a state-or-reward segment, reformats both, forces the
zero-reward token `R0 = REWARDS[0.0]` when the step counter `t` reaches
`max_steps`, and accumulates both segments.  A completion that does not
split into at least two segments would raise in Python (`none` here); `fuel`
makes the recursion structural. -/
def qValueLoop (Rvals : List Str) (R0 : Str) (max_steps : Nat) (cs : Nat → Str) :
    Nat → Nat → Str → List Str → Nat → Option (List Str)
  | _, _, _, _, 0 => none
  | k, t, state_or_reward, completions, fuel + 1 =>
    if state_or_reward ∈ Rvals then some completions
    else
      match splitOnDot (lstrip (cs k)) with
      | action :: sor :: _ =>
        let action2 := reformat action
        let sor2 := reformat sor
        let sor3 := if t = max_steps then R0 else sor2
        qValueLoop Rvals R0 max_steps cs (k + 1) (t + 1) sor3
          (completions ++ [action2, sor3]) fuel
      | _ => none

/-- `Q.value` (src/gql/model.py:175-214), as the list of accumulated
completion segments: the first completion is split into a state-or-reward
segment and an action segment, the reformatted state-or-reward segment
starts the accumulator, and the rollout loop runs from `t = 1` with enough
fuel for the `max_steps` depth bound plus the final loop-condition check. -/
def qValueComps (Rvals : List Str) (R0 : Str) (max_steps : Nat)
    (cs : Nat → Str) : Option (List Str) :=
  match splitOnDot (lstrip (cs 0)) with
  | state_or_reward :: _action :: _ =>
    let sor := reformat state_or_reward
    qValueLoop Rvals R0 max_steps cs 1 1 sor [sor] (max_steps + 1)
  | _ => none

/-- `Q.value`'s returned string: `" ".join(completions)`
(src/gql/model.py:214). -/
def qValue (Rvals : List Str) (R0 : Str) (max_steps : Nat)
    (cs : Nat → Str) : Option Str :=
  (qValueComps Rvals R0 max_steps cs).map (List.intercalate " ".data)

theorem splitOnDot_ne_nil (s : Str) : splitOnDot s ≠ [] := by
  cases s with
  | nil => simp [splitOnDot]
  | cons c cs =>
    rw [splitOnDot]
    by_cases hc : c = '.'
    · simp [hc]
    · simp only [hc, if_neg, not_false_iff]
      cases h : splitOnDot cs <;> simp

theorem dot_mem_splitOnDot (s : Str) (h : '.' ∈ s) :
    2 ≤ (splitOnDot s).length := by
  induction s with
  | nil => simp at h
  | cons c cs ih =>
    rw [splitOnDot]
    by_cases hc : c = '.'
    · simp only [hc, if_pos]
      have := splitOnDot_ne_nil cs
      cases hs : splitOnDot cs with
      | nil => exact absurd hs this
      | cons r rs => simp
    · have hcs : '.' ∈ cs := by
        rcases List.mem_cons.mp h with h1 | h1
        · exact absurd h1.symm hc
        · exact h1
      simp only [hc, if_neg, not_false_iff]
      cases hs : splitOnDot cs with
      | nil => exact absurd hs (splitOnDot_ne_nil cs)
      | cons r rs =>
        have := ih hcs
        rw [hs] at this
        simpa using this

theorem dot_mem_lstrip (s : Str) (h : '.' ∈ s) : '.' ∈ lstrip s := by
  induction s with
  | nil => simp at h
  | cons c cs ih =>
    by_cases hw : c.isWhitespace
    · have hcs : '.' ∈ cs := by
        rcases List.mem_cons.mp h with h1 | h1
        · rw [← h1] at hw
          exact absurd hw (by decide)
        · exact h1
      simpa [lstrip, List.dropWhile, hw] using ih hcs
    · simpa [lstrip, List.dropWhile, hw] using h

theorem getLast?_append_pair (l : List Str) (a b : Str) :
    (l ++ [a, b]).getLast? = some b := by
  rw [show l ++ [a, b] = (l ++ [a]) ++ [b] by simp, List.getLast?_concat]

theorem qValueLoop_spec (Rvals : List Str) (R0 : Str) (max_steps : Nat)
    (cs : Nat → Str) (hR0 : R0 ∈ Rvals) (hdot : ∀ k, '.' ∈ cs k) :
    ∀ fuel t k sor comps,
      ((sor ∈ Rvals ∧ 1 ≤ fuel) ∨ (t ≤ max_steps ∧ max_steps + 2 ≤ fuel + t)) →
      comps.getLast? = some sor →
      ∃ out, qValueLoop Rvals R0 max_steps cs k t sor comps fuel = some out ∧
        ∃ last, out.getLast? = some last ∧ last ∈ Rvals := by
  intro fuel
  induction fuel with
  | zero =>
    intro t k sor comps hcase _
    rcases hcase with ⟨_, h1⟩ | ⟨h1, h2⟩ <;> omega
  | succ fuel ih =>
    intro t k sor comps hcase hlast
    by_cases hmem : sor ∈ Rvals
    · refine ⟨comps, ?_, sor, hlast, hmem⟩
      rw [qValueLoop]
      simp [hmem]
    · have ht : t ≤ max_steps ∧ max_steps + 2 ≤ (fuel + 1) + t := by
        rcases hcase with ⟨h1, _⟩ | h1
        · exact absurd h1 hmem
        · exact h1
      have h2 : 2 ≤ (splitOnDot (lstrip (cs k))).length :=
        dot_mem_splitOnDot _ (dot_mem_lstrip _ (hdot k))
      cases hsp : splitOnDot (lstrip (cs k)) with
      | nil => rw [hsp] at h2; simp at h2
      | cons a tail =>
        cases tail with
        | nil => rw [hsp] at h2; simp at h2
        | cons s rest =>
          rw [qValueLoop]
          simp only [hmem, if_neg, not_false_iff, hsp]
          set sor3 := if t = max_steps then R0 else reformat s with hsor3
          have hlast2 : (comps ++ [reformat a, sor3]).getLast? = some sor3 :=
            getLast?_append_pair comps _ _
          by_cases htm : t = max_steps
          · have : sor3 ∈ Rvals := by rw [hsor3, if_pos htm]; exact hR0
            exact ih (t + 1) (k + 1) sor3 _ (Or.inl ⟨this, by omega⟩) hlast2
          · exact ih (t + 1) (k + 1) sor3 _ (Or.inr ⟨by omega, by omega⟩) hlast2

/-- C2: for every input and every stream of completions that each contain a
`'.'` (as `GPT3.__call__` guarantees), `Q.value` terminates within the
configured maximum rollout depth `max_steps ≥ 1` — the fuel
`max_steps + 1` covering the depth bound is never exhausted — and the value
string it returns is well-formed: its final segment is a recognized
terminal-reward token (the zero-reward token `REWARDS[0.0]` being forced at
the depth bound if no recognized token appeared earlier), so the string is
parseable by `quantify`. -/
theorem q_value_terminates (Rvals : List Str) (R0 : Str) (max_steps : Nat)
    (cs : Nat → Str) (hms : 1 ≤ max_steps) (hR0 : R0 ∈ Rvals)
    (hdot : ∀ k, '.' ∈ cs k) :
    ∃ comps, qValueComps Rvals R0 max_steps cs = some comps ∧
      qValue Rvals R0 max_steps cs = some (List.intercalate " ".data comps) ∧
      ∃ last, comps.getLast? = some last ∧ last ∈ Rvals := by
  have h2 : 2 ≤ (splitOnDot (lstrip (cs 0))).length :=
    dot_mem_splitOnDot _ (dot_mem_lstrip _ (hdot 0))
  cases hsp : splitOnDot (lstrip (cs 0)) with
  | nil => rw [hsp] at h2; simp at h2
  | cons sor tail =>
    cases tail with
    | nil => rw [hsp] at h2; simp at h2
    | cons a rest =>
      obtain ⟨out, hout, last, hl, hlr⟩ :=
        qValueLoop_spec Rvals R0 max_steps cs hR0 hdot (max_steps + 1) 1 1
          (reformat sor) [reformat sor]
          (Or.inr ⟨hms, by omega⟩) (by simp)
      refine ⟨out, ?_, ?_, last, hl, hlr⟩
      · rw [qValueComps, hsp]
        exact hout
      · rw [qValue]
        rw [show qValueComps Rvals R0 max_steps cs = some out from by
          rw [qValueComps, hsp]; exact hout]
        rfl

/-- Concrete terminal-reward token list for the C2 witness. -/
def RvalsW : List Str := ["Z.".data]

/-- Concrete completion stream for the C2 witness. -/
def csQW : Nat → Str := fun _ => "Z.x".data

theorem q_value_terminates_witness :
    ∃ comps, qValueComps RvalsW "Z.".data 1 csQW = some comps ∧
      qValue RvalsW "Z.".data 1 csQW = some (List.intercalate " ".data comps) ∧
      ∃ last, comps.getLast? = some last ∧ last ∈ RvalsW :=
  q_value_terminates RvalsW "Z.".data 1 csQW (by decide) (by decide)
    (fun _ => by show ('.' : Char) ∈ ("Z.x".data : Str); decide)

/-- `TimeStep` (src/gql/model.py:13-18): `next_state` is `None` exactly when
the step is terminal; the float reward is modelled as a rational. -/
structure TimeStep where
  state : Int
  action : Int
  reward : ℚ
  next_state : Option Int
deriving DecidableEq

/-- The string-rendering interface of the gql `env` module (imported by
src/gql/model.py but not part of the tree): deterministic renderings of
states, actions and (reward, next-state) pairs. -/
structure EnvStr where
  state_str : Int → Str
  action_str : Int → Str
  reward_str : ℚ → Option Int → Str

/-- `Prompt.to_string` (src/gql/model.py:44-45):
the f-string `"{state_str} {action_str} {value}"`. -/
def promptToString (env : EnvStr) (state action : Int) (value : Str) : Str :=
  env.state_str state ++ " ".data ++ env.action_str action ++ " ".data ++ value

/-- The reward text contributed by the head step of the module-level
`to_string` (src/gql/model.py:53-56): the rendered terminal reward when
`next_state is None`, empty otherwise. -/
def stepRewardText (env : EnvStr) (head : TimeStep) : Str :=
  match head.next_state with
  | none => env.reward_str head.reward none
  | some _ => []

/-- The separator of src/gql/model.py:59: a single space exactly when both
the reward text and the rendered tail are non-empty. -/
def rewardSep (rtext cont : Str) : Str :=
  if rtext ≠ [] ∧ cont ≠ [] then " ".data else []

/-- The module-level trajectory renderer `to_string`
(src/gql/model.py:48-62): right-to-left recursion through `Prompt.make`
(which lstrips the value) and `Prompt.to_string`. -/
def to_string (env : EnvStr) : List TimeStep → Str
  | [] => []
  | head :: tail =>
    promptToString env head.state head.action
      (lstrip (stepRewardText env head ++
        rewardSep (stepRewardText env head) (to_string env tail) ++
        to_string env tail))

/-- The rendering described by the specification (spec §4.2/§8) in its own
words: recursively right-to-left, each step contributing its rendered
`state action` pair, a terminal step (`next_state is None`) additionally
contributing its reward rendering, a single space separating the reward
text from the continuation exactly when both are non-empty, and no
continuation-state suffix ever appended. -/
def renderSpec (env : EnvStr) : List TimeStep → Str
  | [] => []
  | head :: tail =>
    promptToString env head.state head.action
      (stepRewardText env head ++
        rewardSep (stepRewardText env head) (renderSpec env tail) ++
        renderSpec env tail)

/-- `TimeStep.to_string` (src/gql/model.py:20-28): unlike the module-level
renderer, this appends the rendered continuation state when the step is not
terminal. -/
def TimeStep.to_string (env : EnvStr) (ts : TimeStep) : Str :=
  env.state_str ts.state ++ " ".data ++ env.action_str ts.action ++ " ".data
    ++ env.reward_str ts.reward ts.next_state
    ++ (match ts.next_state with
        | none => []
        | some s => env.state_str s)

/-- `true` iff the string is non-empty and begins with a non-whitespace
character (so that Python's `lstrip` leaves it unchanged). -/
def startsNonWs : Str → Bool
  | [] => false
  | c :: _ => !c.isWhitespace

theorem lstrip_startsNonWs (s : Str) (h : startsNonWs s = true) :
    lstrip s = s := by
  cases s with
  | nil => rfl
  | cons c cs =>
    simp only [startsNonWs, Bool.not_eq_true'] at h
    simp [lstrip, List.dropWhile_cons, h]

theorem startsNonWs_append (x y : Str) (h : startsNonWs x = true) :
    startsNonWs (x ++ y) = true := by
  cases x with
  | nil => simp [startsNonWs] at h
  | cons c cs => simpa [startsNonWs] using h

theorem promptToString_startsNonWs (env : EnvStr) (s a : Int) (v : Str)
    (hS : startsNonWs (env.state_str s) = true) :
    startsNonWs (promptToString env s a v) = true := by
  unfold promptToString
  exact startsNonWs_append _ _ (startsNonWs_append _ _ (startsNonWs_append _ _
    (startsNonWs_append _ _ hS)))

theorem lstrip_reward_block (rt cont : Str)
    (h1 : rt = [] ∨ startsNonWs rt = true)
    (h2 : cont = [] ∨ startsNonWs cont = true) :
    lstrip (rt ++ rewardSep rt cont ++ cont) =
      rt ++ rewardSep rt cont ++ cont := by
  rcases h1 with h1 | h1
  · subst h1
    rcases h2 with h2 | h2
    · subst h2; rfl
    · simp only [rewardSep, ne_eq, not_true_eq_false, false_and, if_false]
      simpa using lstrip_startsNonWs cont h2
  · exact lstrip_startsNonWs _ (startsNonWs_append _ _ (startsNonWs_append _ _ h1))

theorem to_string_eq_renderSpec (env : EnvStr)
    (hS : ∀ s, startsNonWs (env.state_str s) = true)
    (hR : ∀ r, env.reward_str r none = [] ∨
      startsNonWs (env.reward_str r none) = true) :
    ∀ traj, to_string env traj = renderSpec env traj := by
  intro traj
  induction traj with
  | nil => rfl
  | cons head tail ih =>
    rw [to_string, renderSpec, ih]
    congr 1
    apply lstrip_reward_block
    · unfold stepRewardText
      cases head.next_state with
      | none => exact hR head.reward
      | some s => exact Or.inl rfl
    · cases tail with
      | nil => exact Or.inl rfl
      | cons h2 t2 =>
        right
        rw [renderSpec]
        exact promptToString_startsNonWs env _ _ _ (hS _)

/-- C7: provided the environment's state renderings and terminal reward
renderings never begin with whitespace (so Python's lstrip normalization is
the identity on them), the module-level renderer `to_string` produces
exactly the recursive right-to-left concatenation described by the spec
(`renderSpec`): each step contributes its rendered `state action` pair, a
terminal step additionally contributes its reward rendering, and a single
space separates the reward text from the continuation exactly when both are
non-empty; moreover `TimeStep.to_string` on a terminal step appends no
continuation-state suffix. -/
theorem render_matches_spec (env : EnvStr)
    (hS : ∀ s, startsNonWs (env.state_str s) = true)
    (hR : ∀ r, env.reward_str r none = [] ∨
      startsNonWs (env.reward_str r none) = true) :
    (∀ traj, to_string env traj = renderSpec env traj) ∧
    (∀ ts : TimeStep, ts.next_state = none →
      TimeStep.to_string env ts =
        env.state_str ts.state ++ " ".data ++ env.action_str ts.action
          ++ " ".data ++ env.reward_str ts.reward none) := by
  refine ⟨to_string_eq_renderSpec env hS hR, ?_⟩
  intro ts hns
  rw [TimeStep.to_string, hns]
  simp

/-- Concrete environment renderers for the C7 witness. -/
def envR : EnvStr where
  state_str := fun _ => "s".data
  action_str := fun _ => "b".data
  reward_str := fun _ _ => "r".data

/-- Concrete terminal time step for the C7 witness. -/
def tsR : TimeStep := ⟨0, 1, 1, none⟩

theorem render_matches_spec_witness :
    to_string envR [tsR] = renderSpec envR [tsR] ∧
    TimeStep.to_string envR tsR =
      envR.state_str tsR.state ++ " ".data ++ envR.action_str tsR.action
        ++ " ".data ++ envR.reward_str tsR.reward none :=
  ⟨(render_matches_spec envR (fun _ => rfl) (fun _ => Or.inr rfl)).1 [tsR],
   (render_matches_spec envR (fun _ => rfl) (fun _ => Or.inr rfl)).2 tsR rfl⟩

/-- The literal part of the reward regex of `Env.quantify`
(src/gqn/base_env.py:75): `assert reward == ` (17 characters), to be
followed by one captured digit. -/
def rewardPat : Str := "assert reward == ".data

/-- One attempted match of the regex `assert reward == (\d)` at the head of
the string: on success, the captured digit together with the remainder of
the string after the whole match. -/
def matchRewardAt (s : Str) : Option (Char × Str) :=
  if rewardPat.isPrefixOf s then
    match s.drop 17 with
    | c :: rest => if c.isDigit then some (c, rest) else none
    | [] => none
  else none

/-- `re.findall(r"assert reward == (\d)", prompt)`: scan left to right,
non-overlapping, resuming after the end of each match.  `fuel`
(instantiated with the string length) makes the recursion structural. -/
def findRewardsAux : Nat → Str → List Char
  | 0, _ => []
  | _ + 1, [] => []
  | fuel + 1, c :: cs =>
    match matchRewardAt (c :: cs) with
    | some (d, rest) => d :: findRewardsAux fuel rest
    | none => findRewardsAux fuel cs

/-- The list of digits captured by the reward regex over the whole string. -/
def findRewards (s : Str) : List Char := findRewardsAux s.length s

/-- `Env.quantify` (src/gqn/base_env.py:74-76): the sum of the digit
literals captured by `re.findall(r"assert reward == (\d)", prompt)`
(`sum([float(x) for x in matches])`, with the float sum of single digits
modelled as a rational). -/
def quantify (s : Str) : ℚ :=
  (findRewards s).foldr (fun c acc => ((c.toNat - 48 : ℕ) : ℚ) + acc) 0

/-- The decimal digit characters. -/
def digitChar : Nat → Char
  | 0 => '0' | 1 => '1' | 2 => '2' | 3 => '3' | 4 => '4'
  | 5 => '5' | 6 => '6' | 7 => '7' | 8 => '8' | _ => '9'

/-- Modelled from the spec: the terminal reward renderer of the gql `env`
module (imported by src/gql/model.py but absent from src/).  Per spec §6 the
environment renders rewards as text that its `quantify` recognizes; with the
`quantify` of src/gqn/base_env.py this means a single-digit reward `r` is
rendered as `assert reward == r` followed by the reward stop token
(newline, src/gqn/base_env.py:78-80); a non-terminal step renders no reward
text. -/
def rewardStrModel (r : ℚ) (ns : Option Int) : Str :=
  match ns with
  | none => rewardPat ++ [digitChar r.num.toNat] ++ "\n".data
  | some _ => []

/-- The gql environment with abstract state/action renderers and the
spec-modelled reward renderer. -/
def envQuant (state_str action_str : Int → Str) : EnvStr :=
  ⟨state_str, action_str, rewardStrModel⟩

theorem digitChar_isDigit (n : Nat) : (digitChar n).isDigit = true := by
  rcases n with _|_|_|_|_|_|_|_|_|n
  · decide
  · decide
  · decide
  · decide
  · decide
  · decide
  · decide
  · decide
  · decide
  · exact (by decide : ('9' : Char).isDigit = true)

theorem digitChar_val (n : Nat) (h : n ≤ 9) : (digitChar n).toNat - 48 = n := by
  interval_cases n <;> decide

theorem matchRewardAt_cons_ne (c : Char) (cs : Str) (hc : c ≠ 'a') :
    matchRewardAt (c :: cs) = none := by
  rw [matchRewardAt]
  have hac : ('a' == c) = false := by
    rw [beq_eq_false_iff_ne]
    exact fun h => hc h.symm
  have hpre : rewardPat.isPrefixOf (c :: cs) = false := by
    show (('a' :: "ssert reward == ".data).isPrefixOf (c :: cs)) = false
    simp [List.isPrefixOf, hac]
  rw [hpre]
  simp

theorem matchRewardAt_pat (d : Char) (Y : Str) (hd : d.isDigit = true) :
    matchRewardAt (rewardPat ++ [d] ++ Y) = some (d, Y) := by
  rw [matchRewardAt]
  have hpre : rewardPat.isPrefixOf (rewardPat ++ [d] ++ Y) = true := by
    rw [List.isPrefixOf_iff_prefix, List.append_assoc]
    exact List.prefix_append _ _
  have hdrop : (rewardPat ++ [d] ++ Y).drop 17 = d :: Y := by
    rw [List.append_assoc, show (17 : Nat) = rewardPat.length from rfl,
      List.drop_left]
    rfl
  rw [hpre, hdrop]
  simp [hd]

theorem findRewardsAux_skip (B : Str) (s : Str) (f : Nat)
    (hB : ∀ c ∈ B, c ≠ 'a') :
    findRewardsAux (B.length + f) (B ++ s) = findRewardsAux f s := by
  induction B with
  | nil => simp
  | cons c B ih =>
    have hc : c ≠ 'a' := hB c (List.mem_cons_self c B)
    have hlen : (c :: B).length + f = (B.length + f) + 1 := by
      simp [List.length_cons]
      omega
    rw [hlen]
    show findRewardsAux ((B.length + f) + 1) (c :: (B ++ s)) = findRewardsAux f s
    rw [findRewardsAux, matchRewardAt_cons_ne c _ hc]
    exact ih (fun x hx => hB x (List.mem_cons_of_mem c hx))

theorem findRewardsAux_none (f : Nat) :
    ∀ Y : Str, (∀ c ∈ Y, c ≠ 'a') → findRewardsAux f Y = [] := by
  induction f with
  | zero => intro Y _; rfl
  | succ f ih =>
    intro Y hY
    cases Y with
    | nil => rfl
    | cons c cs =>
      rw [findRewardsAux, matchRewardAt_cons_ne c cs (hY c (List.mem_cons_self c cs))]
      exact ih cs (fun x hx => hY x (List.mem_cons_of_mem c hx))

theorem findRewards_single (B Y : Str) (d : Char)
    (hB : ∀ c ∈ B, c ≠ 'a') (hY : ∀ c ∈ Y, c ≠ 'a') (hd : d.isDigit = true) :
    findRewards (B ++ (rewardPat ++ [d] ++ Y)) = [d] := by
  unfold findRewards
  rw [show (B ++ (rewardPat ++ [d] ++ Y)).length =
    B.length + (rewardPat ++ [d] ++ Y).length by simp]
  rw [findRewardsAux_skip B _ _ hB]
  have hlen : (rewardPat ++ [d] ++ Y).length = (17 + Y.length) + 1 := by
    simp [rewardPat]
    omega
  rw [hlen]
  show findRewardsAux ((17 + Y.length) + 1)
    ('a' :: ("ssert reward == ".data ++ [d] ++ Y)) = [d]
  rw [findRewardsAux]
  rw [show ('a' :: ("ssert reward == ".data ++ [d] ++ Y)) =
    rewardPat ++ [d] ++ Y from rfl]
  rw [matchRewardAt_pat d Y hd]
  show d :: findRewardsAux (17 + Y.length) Y = [d]
  rw [findRewardsAux_none _ Y hY]

theorem lstrip_append_startsNonWs (xs ys : Str) (h : startsNonWs ys = true) :
    lstrip (xs ++ ys) = lstrip xs ++ ys := by
  induction xs with
  | nil => simpa [lstrip] using lstrip_startsNonWs ys h
  | cons c cs ih =>
    by_cases hw : c.isWhitespace
    · simpa [lstrip, List.dropWhile_cons, hw] using ih
    · simp [lstrip, List.dropWhile_cons, hw]

theorem stepRewardText_terminal (env : EnvStr) (ts : TimeStep)
    (h : ts.next_state = none) :
    stepRewardText env ts = env.reward_str ts.reward none := by
  unfold stepRewardText
  rw [h]

theorem stepRewardText_nonterminal (env : EnvStr) (ts : TimeStep) (s : Int)
    (h : ts.next_state = some s) : stepRewardText env ts = [] := by
  unfold stepRewardText
  rw [h]

theorem to_string_terminal_shape (state_str action_str : Int → Str)
    (hS : ∀ s c, c ∈ state_str s → c ≠ 'a')
    (hA : ∀ s c, c ∈ action_str s → c ≠ 'a') :
    ∀ (init : List TimeStep) (last : TimeStep),
      (∀ ts ∈ init, ts.next_state ≠ none) → last.next_state = none →
      ∃ B : Str,
        to_string (envQuant state_str action_str) (init ++ [last]) =
          B ++ (rewardPat ++ [digitChar last.reward.num.toNat] ++ "\n".data) ∧
        ∀ c ∈ B, c ≠ 'a' := by
  intro init
  induction init with
  | nil =>
    intro last _ hterm
    refine ⟨state_str last.state ++ " ".data ++ action_str last.action ++
      " ".data, ?_, ?_⟩
    · rw [List.nil_append, to_string, stepRewardText_terminal _ _ hterm,
        show to_string (envQuant state_str action_str) [] = [] from rfl]
      rw [show rewardSep
        ((envQuant state_str action_str).reward_str last.reward none) [] = []
        from by simp [rewardSep]]
      rw [List.append_nil, List.append_nil]
      rw [show (envQuant state_str action_str).reward_str last.reward none =
        rewardPat ++ [digitChar last.reward.num.toNat] ++ "\n".data from rfl]
      rw [lstrip_startsNonWs _ (startsNonWs_append _ _
        (startsNonWs_append _ _ (by decide)))]
      unfold promptToString
      simp only [List.append_assoc]
      rfl
    · intro c hc
      simp only [List.append_assoc, List.mem_append] at hc
      rcases hc with h | h | h | h
      · exact hS _ c h
      · have : c = ' ' := by simpa using h
        subst this; decide
      · exact hA _ c h
      · have : c = ' ' := by simpa using h
        subst this; decide
  | cons head init ih =>
    intro last hnt hterm
    obtain ⟨B', hB', hB'a⟩ :=
      ih last (fun ts hts => hnt ts (List.mem_cons_of_mem head hts)) hterm
    have hhead : head.next_state ≠ none := hnt head (List.mem_cons_self _ _)
    obtain ⟨s0, hs0⟩ : ∃ s0, head.next_state = some s0 := by
      cases h : head.next_state with
      | none => exact absurd h hhead
      | some s0 => exact ⟨s0, rfl⟩
    refine ⟨state_str head.state ++ " ".data ++ action_str head.action ++
      " ".data ++ lstrip B', ?_, ?_⟩
    · rw [List.cons_append, to_string, stepRewardText_nonterminal _ _ s0 hs0]
      rw [show rewardSep []
        (to_string (envQuant state_str action_str) (init ++ [last])) = []
        from by simp [rewardSep]]
      rw [List.nil_append, List.nil_append, hB']
      rw [lstrip_append_startsNonWs _ _ (startsNonWs_append _ _
        (startsNonWs_append _ _ (by decide)))]
      unfold promptToString
      simp only [List.append_assoc]
      rfl
    · intro c hc
      simp only [List.append_assoc, List.mem_append] at hc
      rcases hc with h | h | h | h | h
      · exact hS _ c h
      · have : c = ' ' := by simpa using h
        subst this; decide
      · exact hA _ c h
      · have : c = ' ' := by simpa using h
        subst this; decide
      · exact hB'a c ((List.dropWhile_sublist _).subset h)

/-- C8 (spec-modelled env): for a trajectory whose interior steps are all
non-terminal and whose final step is terminal with single-digit reward `r`,
and whose state/action renderings contain no character `'a'` (a sufficient
condition for "no other reward occurrences": every match of the regex
`assert reward == (\d)` must start with an `'a'`), `quantify` applied to the
rendered trajectory recovers exactly the undiscounted terminal reward `r` —
the gamma=1 (no-discounting) case of the claim, `quantify` of
src/gqn/base_env.py taking no discount at all. -/
theorem quantify_render_gamma_one (state_str action_str : Int → Str)
    (hS : ∀ s c, c ∈ state_str s → c ≠ 'a')
    (hA : ∀ s c, c ∈ action_str s → c ≠ 'a')
    (init : List TimeStep) (last : TimeStep)
    (hnt : ∀ ts ∈ init, ts.next_state ≠ none) (hterm : last.next_state = none)
    (d : Nat) (hd : d ≤ 9) (hr : last.reward = (d : ℚ)) :
    quantify (to_string (envQuant state_str action_str) (init ++ [last])) =
      (d : ℚ) := by
  obtain ⟨B, hB, hBa⟩ :=
    to_string_terminal_shape state_str action_str hS hA init last hnt hterm
  have hnum : last.reward.num.toNat = d := by rw [hr]; simp
  rw [hB, hnum]
  have hnl : ∀ c ∈ ("\n".data : Str), c ≠ 'a' := by
    intro c hc
    have : c = '\n' := by simpa using hc
    subst this; decide
  unfold quantify
  rw [findRewards_single B _ (digitChar d) hBa hnl (digitChar_isDigit d)]
  show (((digitChar d).toNat - 48 : ℕ) : ℚ) + 0 = (d : ℚ)
  rw [digitChar_val d hd]
  simp

/-- Concrete state renderer for the C8 witness. -/
def sStrQ : Int → Str := fun _ => "S".data

/-- Concrete action renderer for the C8 witness. -/
def bStrQ : Int → Str := fun _ => "go".data

theorem quantify_render_gamma_one_witness :
    quantify (to_string (envQuant sStrQ bStrQ)
      ([⟨0, 0, 0, some 1⟩] ++ [⟨1, 1, 1, none⟩])) = ((1 : Nat) : ℚ) :=
  quantify_render_gamma_one sStrQ bStrQ
    (fun s c hc => by
      have : c = 'S' := by simpa [sStrQ] using hc
      subst this; decide)
    (fun s c hc => by
      have : c = 'g' ∨ c = 'o' := by simpa [bStrQ] using hc
      rcases this with h | h <;> (subst h; decide))
    [⟨0, 0, 0, some 1⟩] ⟨1, 1, 1, none⟩
    (fun ts hts => by
      have : ts = (⟨0, 0, 0, some 1⟩ : TimeStep) := by simpa using hts
      subst this; decide)
    rfl 1 (by decide) (by norm_num)

/-- Python `trajectory[-m:]` (src/gqn/train.py:122): keep the most recent
`m` steps — including Python's `m = 0` quirk, where `l[-0:]` is the whole
list. -/
def pyLastSlice (m : Nat) (l : List TimeStep) : List TimeStep :=
  if m = 0 then l else l.drop (l.length - m)

/-- The buffer-push loop of src/gqn/train.py:124-126: append the current
trajectory to the buffer, then drop its head (`head, *trajectory =
trajectory`) and repeat while non-empty.  Returns the pushed entries in push
order. -/
def pushSuffixes : List TimeStep → List (List TimeStep)
  | [] => []
  | h :: t => (h :: t) :: pushSuffixes t

/-- The buffer entries appended at the end of one episode
(src/gqn/train.py:121-126): none for an evaluation episode, none for a
timed-out training episode, otherwise every suffix of the right-truncated
trajectory. -/
def episodeBufferEntries (evaluate timed_out : Bool) (max_trajectory : Nat)
    (trajectory : List TimeStep) : List (List TimeStep) :=
  if evaluate then []
  else
    let trajectory2 := pyLastSlice max_trajectory trajectory
    if timed_out then [] else pushSuffixes trajectory2

theorem pushSuffixes_length (l : List TimeStep) :
    (pushSuffixes l).length = l.length := by
  induction l with
  | nil => rfl
  | cons h t ih => simp [pushSuffixes, ih]

theorem pushSuffixes_get? (l : List TimeStep) :
    ∀ i, i < l.length → (pushSuffixes l).get? i = some (l.drop i) := by
  induction l with
  | nil => intro i hi; simp at hi
  | cons h t ih =>
    intro i hi
    cases i with
    | zero => rfl
    | succ i =>
      have : i < t.length := by simp at hi; omega
      simpa [pushSuffixes] using ih i this

theorem pyLastSlice_length (m : Nat) (l : List TimeStep) (h : 1 ≤ m) :
    (pyLastSlice m l).length = min l.length m := by
  unfold pyLastSlice
  rw [if_neg (by omega)]
  rw [List.length_drop]
  omega

/-- C4 (amended): a completed, non-timed-out training episode of length `k`
appends exactly `m = min(k, max_trajectory)` entries to the buffer — one
suffix of the right-truncated trajectory per length `1..m` — pushed in
order from the FULL truncated trajectory down to the shortest suffix (the
`i`-th pushed entry is the truncated trajectory with its first `i` steps
dropped, of length `m - i`); an evaluation or timed-out episode adds no
entries.  (Stated for `max_trajectory ≥ 1`; Python's `l[-0:]` slice would
not truncate at all.) -/
theorem episode_buffer_growth (max_trajectory : Nat) (traj : List TimeStep)
    (hm : 1 ≤ max_trajectory) :
    (episodeBufferEntries false false max_trajectory traj).length =
      min traj.length max_trajectory ∧
    (∀ i, i < min traj.length max_trajectory →
      (episodeBufferEntries false false max_trajectory traj).get? i =
        some ((pyLastSlice max_trajectory traj).drop i) ∧
      ((pyLastSlice max_trajectory traj).drop i).length =
        min traj.length max_trajectory - i) ∧
    (∀ tout, episodeBufferEntries true tout max_trajectory traj = []) ∧
    episodeBufferEntries false true max_trajectory traj = [] := by
  have hlen := pyLastSlice_length max_trajectory traj hm
  have hentries : episodeBufferEntries false false max_trajectory traj =
      pushSuffixes (pyLastSlice max_trajectory traj) := rfl
  refine ⟨?_, ?_, fun tout => rfl, rfl⟩
  · rw [hentries, pushSuffixes_length, hlen]
  · intro i hi
    refine ⟨?_, ?_⟩
    · rw [hentries]
      exact pushSuffixes_get? _ i (by omega)
    · rw [List.length_drop, hlen]

/-- Concrete non-terminal step for the C4 fixtures. -/
def tsA : TimeStep := ⟨0, 0, 0, some 1⟩

/-- Concrete terminal step for the C4 fixtures. -/
def tsB : TimeStep := ⟨1, 1, 1, none⟩

/-- C4 counterexample: a completed, non-timed-out training episode with
trajectory `[tsA, tsB]` and `max_trajectory = 2` pushes the FULL trajectory
first and the shortest suffix last — the entries are
`[[tsA, tsB], [tsB]]`, not `[[tsB], [tsA, tsB]]` — refuting "pushed in
order from the shortest suffix to the full truncated trajectory". -/
theorem episode_buffer_order_counterexample :
    episodeBufferEntries false false 2 [tsA, tsB] = [[tsA, tsB], [tsB]] ∧
    episodeBufferEntries false false 2 [tsA, tsB] ≠ [[tsB], [tsA, tsB]] :=
  ⟨by decide, by decide⟩

theorem episode_buffer_growth_witness :
    (episodeBufferEntries false false 2 [tsA, tsB]).length =
      min ([tsA, tsB] : List TimeStep).length 2 ∧
    (∀ i, i < min ([tsA, tsB] : List TimeStep).length 2 →
      (episodeBufferEntries false false 2 [tsA, tsB]).get? i =
        some ((pyLastSlice 2 [tsA, tsB]).drop i) ∧
      ((pyLastSlice 2 [tsA, tsB]).drop i).length =
        min ([tsA, tsB] : List TimeStep).length 2 - i) ∧
    (∀ tout, episodeBufferEntries true tout 2 [tsA, tsB] = []) ∧
    episodeBufferEntries false true 2 [tsA, tsB] = [] :=
  episode_buffer_growth 2 [tsA, tsB] (by decide)

/-- Lexicographic strict "greater than" on the sort keys
`(quantified value, random tiebreak)`: Python's tuple comparison as used by
`max(..., key=...)`. -/
def keyGt (a b : ℚ × ℚ) : Prop := b.1 < a.1 ∨ (b.1 = a.1 ∧ b.2 < a.2)

instance (a b : ℚ × ℚ) : Decidable (keyGt a b) := by
  unfold keyGt
  infer_instance

/-- Python `max(iterable, key=...)` (src/gql/model.py:161-164): fold over
the list keeping the current maximum, replacing it exactly when the
candidate's key is strictly greater under tuple comparison, so the first
element with a maximal key wins. -/
def pyMax (key : Nat × Str → ℚ × ℚ) : List (Nat × Str) → Option (Nat × Str)
  | [] => none
  | x :: xs =>
    some (xs.foldl (fun m y => if keyGt (key y) (key m) then y else m) x)

/-- Python `list(zip(actions, values))` with `actions = range(n)`
(src/gql/model.py:152-159): the values paired with their action indices,
counting from `k`. -/
def actionValues : Nat → List Str → List (Nat × Str)
  | _, [] => []
  | k, v :: vs => (k, v) :: actionValues (k + 1) vs

/-- `Q._act` (src/gql/model.py:150-173): the index/value pairs are shuffled
and the maximum is taken under the key
`(env.quantify(value, gamma=0.9), rng.random())` — the literal `0.9` is
hard-coded at src/gql/model.py:163, the configured `self.gamma` field being
unused there.  `envQuantify text gamma` stands for the `quantify` of the
missing gql `env` module; `u a` is the random tiebreak drawn when action
`a`'s key is evaluated; `shuffled` is the shuffled pair list. -/
def qAct (envQuantify : Str → ℚ → ℚ) (shuffled : List (Nat × Str))
    (u : Nat → ℚ) : Option Nat :=
  (pyMax (fun x => (envQuantify x.2 (mkRat 9 10), u x.1)) shuffled).map Prod.fst

theorem pyMax_foldl_spec (key : Nat × Str → ℚ × ℚ) :
    ∀ (xs : List (Nat × Str)) (m : Nat × Str),
      (xs.foldl (fun m y => if keyGt (key y) (key m) then y else m) m = m ∨
        xs.foldl (fun m y => if keyGt (key y) (key m) then y else m) m ∈ xs) ∧
      (key m).1 ≤
        (key (xs.foldl (fun m y => if keyGt (key y) (key m) then y else m) m)).1 ∧
      ∀ y ∈ xs, (key y).1 ≤
        (key (xs.foldl (fun m y => if keyGt (key y) (key m) then y else m) m)).1 := by
  intro xs
  induction xs with
  | nil => exact fun m => ⟨Or.inl rfl, le_refl _, by simp⟩
  | cons y ys ih =>
    intro m
    have hstep : (key m).1 ≤ (key (if keyGt (key y) (key m) then y else m)).1 := by
      by_cases h : keyGt (key y) (key m)
      · rw [if_pos h]
        rcases h with h | ⟨h, _⟩
        · exact le_of_lt h
        · exact le_of_eq h
      · rw [if_neg h]
    have hstepy : (key y).1 ≤ (key (if keyGt (key y) (key m) then y else m)).1 := by
      by_cases h : keyGt (key y) (key m)
      · rw [if_pos h]
      · rw [if_neg h]
        by_contra hc
        push_neg at hc
        exact h (Or.inl hc)
    obtain ⟨hmem, hkm, hall⟩ := ih (if keyGt (key y) (key m) then y else m)
    rw [List.foldl_cons]
    refine ⟨?_, le_trans hstep hkm, ?_⟩
    · rcases hmem with h | h
      · rw [h]
        by_cases hg : keyGt (key y) (key m)
        · rw [if_pos hg]
          exact Or.inr (List.mem_cons_self _ _)
        · rw [if_neg hg]
          exact Or.inl rfl
      · exact Or.inr (List.mem_cons_of_mem _ h)
    · intro z hz
      rcases List.mem_cons.mp hz with rfl | hz
      · exact le_trans hstepy hkm
      · exact hall z hz

theorem pyMax_spec (key : Nat × Str → ℚ × ℚ) (l : List (Nat × Str))
    (r : Nat × Str) (h : pyMax key l = some r) :
    r ∈ l ∧ ∀ y ∈ l, (key y).1 ≤ (key r).1 := by
  cases l with
  | nil => simp [pyMax] at h
  | cons x xs =>
    rw [pyMax] at h
    have hr := Option.some.inj h
    obtain ⟨hmem, hx, hall⟩ := pyMax_foldl_spec key xs x
    rw [hr] at hmem hx hall
    constructor
    · rcases hmem with h2 | h2
      · rw [← h2]
        exact List.mem_cons_self _ _
      · exact List.mem_cons_of_mem _ h2
    · intro y hy
      rcases List.mem_cons.mp hy with rfl | hy
      · exact hx
      · exact hall y hy

theorem actionValues_mem (l : List Str) :
    ∀ (k i : Nat) (s : Str), (i, s) ∈ actionValues k l →
      k ≤ i ∧ i - k < l.length ∧ l.get? (i - k) = some s := by
  induction l with
  | nil => intro k i s h; simp [actionValues] at h
  | cons v vs ih =>
    intro k i s h
    rcases List.mem_cons.mp h with h | h
    · obtain ⟨h1, h2⟩ := Prod.mk.injEq .. ▸ h
      rcases h1
      rcases h2
      refine ⟨le_refl _, by simp, ?_⟩
      simp
    · obtain ⟨h1, h2, h3⟩ := ih (k + 1) i s h
      refine ⟨by omega, by simp only [List.length_cons]; omega, ?_⟩
      have : i - k = (i - (k + 1)) + 1 := by omega
      rw [this]
      simpa using h3

theorem actionValues_of_get? (l : List Str) :
    ∀ (k i : Nat) (s : Str), l.get? i = some s →
      (k + i, s) ∈ actionValues k l := by
  induction l with
  | nil => intro k i s h; simp at h
  | cons v vs ih =>
    intro k i s h
    cases i with
    | zero =>
      have hv : v = s := by
        rw [List.get?_cons_zero] at h
        exact Option.some.inj h
      subst hv
      exact List.mem_cons_self _ _
    | succ i =>
      rw [List.get?_cons_succ] at h
      have := ih (k + 1) i s h
      have harith : k + (i + 1) = (k + 1) + i := by omega
      rw [harith]
      exact List.mem_cons_of_mem _ this

/-- C5 (amended): whenever `Q._act` returns over candidate value strings
`vals` (the outputs of `Q.value` for actions `0..n-1`), for any shuffle of
the index/value pairs and any realization of the random tiebreak draws, the
returned action is a valid index and its value string has maximal
`env.quantify(·, gamma=0.9)` among all candidates — with 0.9 the gamma
hard-coded in `Q._act`, not the configured `self.gamma`; ties in the
quantified value are broken by the random tiebreak component of the key. -/
theorem q_act_maximal (envQuantify : Str → ℚ → ℚ) (vals : List Str)
    (shuffled : List (Nat × Str)) (u : Nat → ℚ) (a : Nat)
    (hperm : shuffled.Perm (actionValues 0 vals))
    (h : qAct envQuantify shuffled u = some a) :
    a < vals.length ∧ ∃ sa, vals.get? a = some sa ∧
      ∀ i si, vals.get? i = some si →
        envQuantify si (mkRat 9 10) ≤ envQuantify sa (mkRat 9 10) := by
  unfold qAct at h
  cases hm : pyMax (fun x => (envQuantify x.2 (mkRat 9 10), u x.1)) shuffled with
  | none => rw [hm] at h; simp at h
  | some r =>
    rw [hm] at h
    obtain ⟨hmem, hmax⟩ := pyMax_spec _ shuffled r hm
    have hmem2 : r ∈ actionValues 0 vals := hperm.mem_iff.mp hmem
    obtain ⟨r1, r2⟩ := r
    have ha : r1 = a := Option.some.inj h
    subst ha
    obtain ⟨_, hlt, hget⟩ := actionValues_mem vals 0 r1 r2 hmem2
    simp only [Nat.sub_zero] at hlt hget
    refine ⟨hlt, r2, hget, ?_⟩
    intro i si hi
    have hin : (0 + i, si) ∈ actionValues 0 vals :=
      actionValues_of_get? vals 0 i si hi
    have hin2 : (0 + i, si) ∈ shuffled := hperm.mem_iff.mpr hin
    exact hmax (0 + i, si) hin2

/-- The `quantify` of a concrete environment for the C5 counterexample:
value string `"A."` quantifies to 0 at gamma = 0.9 but to 2 at any other
gamma; `"B."` always quantifies to 1. -/
def qex (s : Str) (gamma : ℚ) : ℚ :=
  if s = "A.".data then (if gamma = mkRat 9 10 then 0 else 2) else 1

/-- C5 counterexample: with the environment quantify `qex` and configured
gamma = 1, `Q._act` returns action 1 (because src/gql/model.py:163 ranks by
the hard-coded `gamma=0.9`, where action 1's value 1 beats action 0's value
0), yet at the configured gamma action 1's quantified value 1 is strictly
smaller than action 0's value 2 — the returned action does not maximize the
value quantified at the configured gamma. -/
theorem q_act_gamma_counterexample :
    qAct qex [(0, "A.".data), (1, "B.".data)] (fun _ => 0) = some 1 ∧
    qex "B.".data 1 < qex "A.".data 1 :=
  ⟨by decide, by decide⟩

theorem q_act_maximal_witness :
    1 < (["A.".data, "B.".data] : List Str).length ∧
    ∃ sa, (["A.".data, "B.".data] : List Str).get? 1 = some sa ∧
      ∀ i si, (["A.".data, "B.".data] : List Str).get? i = some si →
        qex si (mkRat 9 10) ≤ qex sa (mkRat 9 10) :=
  q_act_maximal qex ["A.".data, "B.".data] [(0, "A.".data), (1, "B.".data)]
    (fun _ => 0) 1 (List.Perm.refl _) (by decide)

/-- Modelled from the spec: `get_value` of the gqn `model` module (imported
by src/gqn/train.py:10 but absent from src/): the discounted return of a
trajectory, the sum over its steps of `gamma^i * reward_i` (spec §4.2/§4.6,
"discounted returns of ... buffer trajectories").  The training loop calls
it with `gamma=1`. -/
def getValue (gamma : ℚ) : List TimeStep → ℚ
  | [] => 0
  | ts :: rest => ts.reward + gamma * getValue gamma rest

/-- Python `sorted(value_quantities, reverse=True)` (src/gqn/train.py:80):
a descending-sorted permutation of the value list. -/
def sortedDesc (l : List ℚ) : List ℚ := l.insertionSort (· ≥ ·)

/-- The confidence score of src/gqn/train.py:79-82: the per-step
probability of trusting the learned model,
`use_model_prob = 1 / (1 + math.exp(2 * (min_successes - value_sum)))`,
where `value_sum` sums the `n` largest discounted returns (at `gamma=1`)
over the whole buffer (`sorted(value_quantities, reverse=True)[:n]`). -/
noncomputable def useModelProbOf (buffer : List (List TimeStep)) (n : Nat)
    (min_successes : ℚ) : ℝ :=
  1 / (1 + Real.exp (2 * ((min_successes : ℝ) -
    ((((sortedDesc (buffer.map (getValue 1))).take n).sum : ℚ) : ℝ))))

/-- The model-use decision for a training (non-evaluation) step
(src/gqn/train.py:87-89):
`use_model = (rng.random() < use_model_prob) and model.ready()`. -/
def stepUseModel (buffer : List (List TimeStep)) (n : Nat)
    (min_successes : ℚ) (draw : ℝ) (ready : Bool) : Prop :=
  draw < useModelProbOf buffer n min_successes ∧ ready = true

/-- C6 (amended): at every non-evaluation training-loop step, the learned
model is trusted exactly when the uniform draw falls below
`1 / (1 + exp(2 * (min_successes - s)))` AND the agent reports ready, where
`s` is the sum of the `n` HIGHEST discounted returns among all buffer
trajectories (not the `n` most recent ones): there is a split of the
buffer's returns into `taken ++ rest` with `taken` of size
`min n |buffer|` dominating every element of `rest`, and `s = taken.sum`. -/
theorem use_model_prob_logistic (buffer : List (List TimeStep)) (n : Nat)
    (min_successes : ℚ) (draw : ℝ) (ready : Bool) :
    ∃ taken rest : List ℚ,
      (taken ++ rest).Perm (buffer.map (getValue 1)) ∧
      taken.length = min n buffer.length ∧
      (∀ x ∈ taken, ∀ y ∈ rest, y ≤ x) ∧
      (stepUseModel buffer n min_successes draw ready ↔
        (draw < 1 / (1 + Real.exp (2 * ((min_successes : ℝ) -
          ((taken.sum : ℚ) : ℝ)))) ∧ ready = true)) := by
  refine ⟨(sortedDesc (buffer.map (getValue 1))).take n,
    (sortedDesc (buffer.map (getValue 1))).drop n, ?_, ?_, ?_, Iff.rfl⟩
  · rw [List.take_append_drop]
    exact List.perm_insertionSort _ _
  · rw [List.length_take]
    unfold sortedDesc
    rw [List.length_insertionSort, List.length_map]
  · have hs : List.Sorted (· ≥ ·) (sortedDesc (buffer.map (getValue 1))) :=
      List.sorted_insertionSort _ _
    have hsplit := hs
    rw [← List.take_append_drop n (sortedDesc (buffer.map (getValue 1)))] at hsplit
    have hcross := (List.pairwise_append.mp hsplit).2.2
    intro x hx y hy
    exact hcross x hx y hy

/-- The older buffer trajectory of the C6 counterexample: reward 1. -/
def tOld : List TimeStep := [⟨0, 0, 1, none⟩]

/-- The most recent buffer trajectory of the C6 counterexample: reward 0
(the training loop appends on the right of the deque, so the most recent
entry is last). -/
def tNew : List TimeStep := [⟨0, 0, 0, none⟩]

/-- The selection rule in the claim's own words: the returns of the top-`n`
MOST RECENT buffer trajectories, i.e. of the last `n` buffer entries. -/
def recentSum (n : Nat) (values : List ℚ) : ℚ :=
  (values.drop (values.length - n)).sum

theorem getValue_map_ce :
    [tOld, tNew].map (getValue 1) = [(1 : ℚ), 0] := by
  simp [getValue, tOld, tNew]

/-- C6 counterexample: with buffer `[tOld, tNew]` (returns 1 then 0),
`n = 1` and `min_successes = 0`, the code's confidence score uses the
HIGHEST return (1, from the older trajectory), giving
`1/(1+exp(-2))`, while the claim's "top-n most recent" rule selects the
most recent return 0, giving `1/(1+exp(0)) = 1/2` — the two probabilities
differ, refuting the claim's selection rule. -/
theorem use_model_prob_recency_counterexample :
    useModelProbOf [tOld, tNew] 1 0 ≠
      1 / (1 + Real.exp (2 * (((0 : ℚ) : ℝ) -
        ((recentSum 1 ([tOld, tNew].map (getValue 1)) : ℚ) : ℝ)))) := by
  have hsort : sortedDesc [(1 : ℚ), 0] = [1, 0] := by
    simp [sortedDesc, List.insertionSort, List.orderedInsert]
  have htake : useModelProbOf [tOld, tNew] 1 0 =
      1 / (1 + Real.exp (2 * (((0 : ℚ) : ℝ) - ((1 : ℚ) : ℝ)))) := by
    unfold useModelProbOf
    rw [getValue_map_ce, hsort]
    norm_num
  have hrec : recentSum 1 ([tOld, tNew].map (getValue 1)) = 0 := by
    rw [getValue_map_ce]
    unfold recentSum
    norm_num
  rw [htake, hrec]
  intro heq
  have hpos1 : (0 : ℝ) < 1 + Real.exp (2 * (((0 : ℚ) : ℝ) - ((1 : ℚ) : ℝ))) := by
    positivity
  have hpos2 : (0 : ℝ) < 1 + Real.exp (2 * (((0 : ℚ) : ℝ) - ((0 : ℚ) : ℝ))) := by
    positivity
  rw [div_eq_div_iff hpos1.ne' hpos2.ne', one_mul, one_mul] at heq
  have hexp : Real.exp (2 * (((0 : ℚ) : ℝ) - ((1 : ℚ) : ℝ))) =
      Real.exp (2 * (((0 : ℚ) : ℝ) - ((0 : ℚ) : ℝ))) := by linarith
  rw [Real.exp_eq_exp] at hexp
  norm_num at hexp

/-- The per-step update of the global step counter `T` across one episode
(src/gqn/train.py:96-99): within the inner `while not done` loop, `T` is
incremented once per step exactly when the episode is not an evaluation
episode. -/
def innerLoop (evaluate : Bool) (T : Nat) : Nat → Nat
  | 0 => T
  | steps + 1 => innerLoop evaluate (if evaluate then T else T + 1) steps

/-- The outer episode loop of src/gqn/train.py:69-126 at episode
granularity: while `T < total_steps`, run one more episode — an evaluation
episode exactly when the episode counter is divisible by `eval_frequency`
(src/gqn/train.py:74) — of `lens episodes` steps, updating `T` through
`innerLoop`.  `fuel` bounds the number of episodes modelled; returns the
final value of `T`. -/
def trainLoop (eval_frequency : Nat) (lens : Nat → Nat) (total_steps : Nat) :
    Nat → Nat → Nat → Option Nat
  | 0, _, _ => none
  | fuel + 1, T, episodes =>
    if T < total_steps then
      trainLoop eval_frequency lens total_steps fuel
        (innerLoop (episodes % eval_frequency == 0) T (lens episodes))
        (episodes + 1)
    else some T

theorem innerLoop_eq (evaluate : Bool) : ∀ (steps T : Nat),
    innerLoop evaluate T steps = if evaluate then T else T + steps := by
  intro steps
  induction steps with
  | zero =>
    intro T
    rw [innerLoop]
    cases evaluate <;> simp
  | succ steps ih =>
    intro T
    rw [innerLoop, ih]
    cases evaluate
    · simp
      omega
    · simp

theorem trainLoop_ge (eval_frequency : Nat) (lens : Nat → Nat)
    (total_steps : Nat) : ∀ (fuel T episodes Tf : Nat),
    trainLoop eval_frequency lens total_steps fuel T episodes = some Tf →
    total_steps ≤ Tf := by
  intro fuel
  induction fuel with
  | zero => intro T e Tf h; simp [trainLoop] at h
  | succ fuel ih =>
    intro T e Tf h
    rw [trainLoop] at h
    by_cases hT : T < total_steps
    · rw [if_pos hT] at h
      exact ih _ _ _ h
    · rw [if_neg hT] at h
      have := Option.some.inj h
      omega

/-- C9 (amended): the training loop's global step counter `T` is
incremented exactly once per step of a non-evaluation episode and never
during evaluation episodes, and the loop exits exactly when `T ≥
total_steps` at an episode boundary — so whenever the loop terminates,
`T ≥ total_steps`, but equality is NOT guaranteed: the final episode may
overshoot the budget, since `T < total_steps` is only re-checked between
episodes. -/
theorem train_T_budget (eval_frequency : Nat) (lens : Nat → Nat)
    (total_steps fuel T0 episodes0 Tf : Nat)
    (h : trainLoop eval_frequency lens total_steps fuel T0 episodes0 = some Tf) :
    total_steps ≤ Tf ∧
    (∀ (evaluate : Bool) (steps T : Nat),
      innerLoop evaluate T steps = if evaluate then T else T + steps) :=
  ⟨trainLoop_ge eval_frequency lens total_steps fuel T0 episodes0 Tf h,
   fun e steps T => innerLoop_eq e steps T⟩

/-- C9 counterexample: with `eval_frequency = 2`, every episode 3 steps
long and `total_steps = 5`, the loop terminates with `T = 6 ≠ 5`: episode 0
(evaluation) adds nothing, episode 1 brings `T` to 3 < 5, episode 2
(evaluation) adds nothing, episode 3 overshoots to 6, and only then does
the boundary check stop the loop — refuting "upon termination T equals
exactly total_steps". -/
theorem train_T_overshoot_counterexample :
    trainLoop 2 (fun _ => 3) 5 10 0 0 = some 6 ∧ (6 : Nat) ≠ 5 :=
  ⟨by decide, by decide⟩

theorem train_T_budget_witness :
    5 ≤ 6 ∧ (∀ (evaluate : Bool) (steps T : Nat),
      innerLoop evaluate T steps = if evaluate then T else T + steps) :=
  train_T_budget 2 (fun _ => 3) 5 10 0 0 6 (by decide)
